import Mathlib

/-!
Verification development for the `uniweb/content-reader` markdown-to-document
pipeline.  The JavaScript sources (`src/parser/attributes.js`,
`src/parser/inline.js`, `src/parser/block.js`, `src/parser/tables.js`,
`src/parser/index.js`) are shallowly embedded below: JavaScript strings are
Lean `String`s (with the character-level operations spelled out over
`List Char` so that they can be reasoned about), JavaScript objects holding
attribute maps are association lists, and the token / document-node trees are
inductive types.  The in-place mutation that `parseInline` performs on its
input token is made explicit by returning the updated token next to the node
list.  External collaborators (the JSON / YAML deserializers reachable through
a `parse(text) -> value | throws` contract) are parameters of the block
transformer, modelled as `String → Option JValue` with `none` standing for a
thrown exception.
-/

set_option maxHeartbeats 1000000

/-- JavaScript values as they appear in emitted document nodes and in parsed
embedded data: `jnull`/`jundef` are JavaScript `null`/`undefined`, the other
constructors are booleans, numbers, strings, arrays and plain objects. -/
inductive JValue where
  | jnull
  | jundef
  | jbool (b : Bool)
  | jnum (n : Int)
  | jstr (s : String)
  | jarr (elems : List JValue)
  | jobj (fields : List (String × JValue))

/-- Attribute values produced by the curly-brace attribute micro-parser
(`parseAttributeString`): plain strings and boolean flags.  These are the only
value shapes that ever reach a token's `attrs` object. -/
inductive AValue where
  | str (s : String)
  | bool (b : Bool)
deriving Repr, DecidableEq

/-- A token-level attribute map (a JavaScript object with string/boolean
values), as an association list in insertion order. -/
abbrev AttrMap := List (String × AValue)

/-- Embed an attribute value into the document-node value world. -/
def AValue.toJ : AValue → JValue
  | .str s => .jstr s
  | .bool b => .jbool b

/-- JavaScript truthiness of an attribute value: the empty string and `false`
are falsy, everything else is truthy. -/
def AValue.truthy : AValue → Bool
  | .str s => s ≠ ""
  | .bool b => b

/-- Property lookup on a token attribute object (`attrs[k]`, `undefined`
modelled as `none`). -/
def jsGetA (m : AttrMap) (k : String) : Option AValue :=
  (m.find? (fun kv => kv.1 == k)).map (·.2)

/-- Property lookup on a node attribute object. -/
def jsGetJ (m : List (String × JValue)) (k : String) : Option JValue :=
  (m.find? (fun kv => kv.1 == k)).map (·.2)

/-- JavaScript property assignment `obj[k] = v` on an association list: an
existing key keeps its position and gets the new value, a new key is appended
at the end (JavaScript object key order). -/
def setAttr (m : AttrMap) (k : String) (v : AValue) : AttrMap :=
  if m.any (fun kv => kv.1 == k) then
    m.map (fun kv => if kv.1 == k then (k, v) else kv)
  else
    m ++ [(k, v)]

/-- Remove a set of keys from an attribute object, as object-rest
destructuring `{a, b, ...rest}` does. -/
def removeKeys (m : AttrMap) (ks : List String) : AttrMap :=
  m.filter (fun kv => !(ks.contains kv.1))

/-- The character class of the JavaScript regex `\s` (and of `String.prototype.trim`):
ASCII whitespace, NBSP, BOM and the Unicode space separators. -/
def jsIsSpace (c : Char) : Bool :=
  c = ' ' || c = '\t' || c = '\n' || c = '\r' || c.val = 0x0B || c.val = 0x0C ||
  c.val = 0xA0 || c.val = 0x1680 || (0x2000 ≤ c.val && c.val ≤ 0x200A) ||
  c.val = 0x2028 || c.val = 0x2029 || c.val = 0x202F || c.val = 0x205F ||
  c.val = 0x3000 || c.val = 0xFEFF

/-- First character of the identifier class `[a-zA-Z_]` used by the attribute
grammar. -/
def isIdentStartChar (c : Char) : Bool :=
  ('a' ≤ c && c ≤ 'z') || ('A' ≤ c && c ≤ 'Z') || c = '_'

/-- Continuation characters `[\w-]` of attribute identifiers. -/
def isIdentChar (c : Char) : Bool :=
  isIdentStartChar c || ('0' ≤ c && c ≤ '9') || c = '-'

/-- Greedy match of `[a-zA-Z_][\w-]*` at the start of the input; returns the
identifier and the rest. -/
def matchIdent (l : List Char) : Option (List Char × List Char) :=
  match l with
  | [] => none
  | c :: cs =>
    if isIdentStartChar c then
      some (c :: cs.takeWhile isIdentChar, cs.dropWhile isIdentChar)
    else
      none

/-- Match the `key=value` alternative of the attribute regex:
`([a-zA-Z_][\w-]*)=(?:"([^"]*)"|'([^']*)'|([^\s}]+))`.  A quoted alternative
only matches when a closing quote exists; otherwise the bare-value alternative
gets a chance (and may consume the opening quote itself). -/
def tryKeyValue (l : List Char) : Option (String × AValue × List Char) :=
  match matchIdent l with
  | none => none
  | some (key, rest) =>
    match rest with
    | '=' :: rest2 =>
      match rest2 with
      | '"' :: r3 =>
        if r3.any (fun c => c = '"') then
          some (⟨key⟩, .str ⟨r3.takeWhile (fun c => c ≠ '"')⟩,
                (r3.dropWhile (fun c => c ≠ '"')).drop 1)
        else
          let v := rest2.takeWhile (fun c => !jsIsSpace c && c ≠ '\x7d')
          if v.isEmpty then none
          else some (⟨key⟩, .str ⟨v⟩, rest2.drop v.length)
      | '\'' :: r3 =>
        if r3.any (fun c => c = '\'') then
          some (⟨key⟩, .str ⟨r3.takeWhile (fun c => c ≠ '\'')⟩,
                (r3.dropWhile (fun c => c ≠ '\'')).drop 1)
        else
          let v := rest2.takeWhile (fun c => !jsIsSpace c && c ≠ '\x7d')
          if v.isEmpty then none
          else some (⟨key⟩, .str ⟨v⟩, rest2.drop v.length)
      | _ =>
        let v := rest2.takeWhile (fun c => !jsIsSpace c && c ≠ '\x7d')
        if v.isEmpty then none
        else some (⟨key⟩, .str ⟨v⟩, rest2.drop v.length)
    | _ => none

/-- Match the boolean-flag alternative `([a-zA-Z_][\w-]*)(?=\s|$)` (an
identifier followed by whitespace or the end of input). -/
def tryBool (l : List Char) : Option (String × List Char) :=
  match matchIdent l with
  | none => none
  | some (key, rest) =>
    match rest with
    | [] => some (⟨key⟩, [])
    | c :: _ => if jsIsSpace c then some (⟨key⟩, rest) else none

/-- One pass of the global regex scan of `parseAttributeString`: at each
position the alternatives `key=value`, `.class`, `#id`, bare flag are tried in
order; if none matches, the scan advances one character (as `RegExp.exec`
does).  The fuel argument only serves termination; every step consumes at
least one character, so `length + 1` fuel is always enough. -/
def scanAttrs : Nat → List Char → AttrMap → List String → AttrMap × List String
  | 0, _, attrs, classes => (attrs, classes)
  | _ + 1, [], attrs, classes => (attrs, classes)
  | fuel + 1, c :: cs, attrs, classes =>
    match tryKeyValue (c :: cs) with
    | some (k, v, rest) => scanAttrs fuel rest (setAttr attrs k v) classes
    | none =>
      if c = '.' then
        match matchIdent cs with
        | some (name, rest) => scanAttrs fuel rest attrs (classes ++ [⟨name⟩])
        | none => scanAttrs fuel cs attrs classes
      else if c = '#' then
        match matchIdent cs with
        | some (name, rest) =>
          scanAttrs fuel rest (setAttr attrs "id" (.str ⟨name⟩)) classes
        | none => scanAttrs fuel cs attrs classes
      else
        match tryBool (c :: cs) with
        | some (k, rest) => scanAttrs fuel rest (setAttr attrs k (.bool true)) classes
        | none => scanAttrs fuel cs attrs classes

/-- Embedding of `parseAttributeString` (src/parser/attributes.js): scan the
attribute string with the alternation regex, collecting `key=value` pairs,
`.class` names, `#id` and boolean flags; accumulated classes are space-joined
into a final `class` entry. -/
def parseAttributeString (attrString : String) : AttrMap :=
  if attrString = "" then []
  else
    let (attrs, classes) :=
      scanAttrs (attrString.length + 1) attrString.toList [] []
    if classes.isEmpty then attrs
    else setAttr attrs "class" (.str (" ".intercalate classes))

/-- Split a character list at newline characters, as `text.split("\n")` does:
the result is never empty, and splitting the empty string yields `[[]]`. -/
def splitLinesCh : List Char → List (List Char)
  | [] => [[]]
  | c :: cs =>
    if c = '\n' then [] :: splitLinesCh cs
    else
      match splitLinesCh cs with
      | [] => [[c]]
      | l :: ls => (c :: l) :: ls

/-- Rejoin lines with newlines, as `lines.join("\n")` does. -/
def joinLinesCh : List (List Char) → List Char
  | [] => []
  | [l] => l
  | l :: l2 :: ls => l ++ '\n' :: joinLinesCh (l2 :: ls)

/-- JavaScript `String.prototype.trim` on a character list: drop the `\s`
class from both ends. -/
def jsTrimCh (l : List Char) : List Char :=
  (l.dropWhile jsIsSpace).rdropWhile jsIsSpace

/-- The `line.startsWith(indent) ? line.slice(indent.length) : line` step of
`cleanCodeText`: a line is dedented exactly when it starts with the indent,
and left unmodified otherwise. -/
def dedentLine (indent line : List Char) : List Char :=
  if indent.isPrefixOf line then line.drop indent.length else line

/-- The `lines[0].match(/^\s*/)[0]` step of `cleanCodeText`: the leading
whitespace run of the first line. -/
def firstLineIndent (text : List Char) : List Char :=
  ((splitLinesCh text).headD []).takeWhile jsIsSpace

/-- Embedding of `cleanCodeText` (src/parser/block.js): take the leading
whitespace run of the first line as the common indent, strip it from every
line that starts with it, rejoin, and trim the result. -/
def cleanCodeTextCh (text : List Char) : List Char :=
  jsTrimCh (joinLinesCh ((splitLinesCh text).map
    (dedentLine (firstLineIndent text))))

/-- String-level wrapper of `cleanCodeTextCh`. -/
def cleanCodeText (text : String) : String :=
  ⟨cleanCodeTextCh text.toList⟩

theorem splitLinesCh_ne_nil (l : List Char) : splitLinesCh l ≠ [] := by
  cases l with
  | nil => simp [splitLinesCh]
  | cons c cs =>
    simp only [splitLinesCh]
    split
    · simp
    · split <;> simp

theorem joinLinesCh_splitLinesCh (l : List Char) :
    joinLinesCh (splitLinesCh l) = l := by
  induction l with
  | nil => rfl
  | cons c cs ih =>
    simp only [splitLinesCh]
    split
    · rename_i hc
      rcases hs : splitLinesCh cs with _ | ⟨l0, ls⟩
      · exact absurd hs (splitLinesCh_ne_nil cs)
      · rw [hs] at ih
        rw [hc]
        simp only [joinLinesCh, List.nil_append]
        rw [ih]
    · rcases hs : splitLinesCh cs with _ | ⟨l0, ls⟩
      · exact absurd hs (splitLinesCh_ne_nil cs)
      · rw [hs] at ih
        cases ls with
        | nil =>
          simp only [joinLinesCh] at ih ⊢
          rw [ih]
        | cons l1 ls1 =>
          simp only [joinLinesCh, List.cons_append] at ih ⊢
          rw [ih]

theorem dropWhile_head_false {p : Char → Bool} {l : List Char} {c : Char}
    {cs : List Char} (h : l.dropWhile p = c :: cs) : p c = false := by
  induction l with
  | nil => simp [List.dropWhile] at h
  | cons a as ih =>
    rw [List.dropWhile_cons] at h
    split at h
    · exact ih h
    · rename_i hp
      cases h
      simpa using hp

theorem jsTrimCh_head_false {l : List Char} {c : Char} {cs : List Char}
    (h : jsTrimCh l = c :: cs) : jsIsSpace c = false := by
  unfold jsTrimCh at h
  have hpre : (l.dropWhile jsIsSpace).rdropWhile jsIsSpace <+: l.dropWhile jsIsSpace :=
    List.rdropWhile_prefix _ _
  rw [h] at hpre
  obtain ⟨t, ht⟩ := hpre
  rw [List.cons_append] at ht
  exact dropWhile_head_false ht.symm

theorem jsTrimCh_idem (l : List Char) : jsTrimCh (jsTrimCh l) = jsTrimCh l := by
  unfold jsTrimCh
  have h1 : ((l.dropWhile jsIsSpace).rdropWhile jsIsSpace).dropWhile jsIsSpace =
      (l.dropWhile jsIsSpace).rdropWhile jsIsSpace := by
    rcases hr : (l.dropWhile jsIsSpace).rdropWhile jsIsSpace with _ | ⟨c, cs⟩
    · rfl
    · rw [List.dropWhile_cons]
      have : jsIsSpace c = false := jsTrimCh_head_false (l := l) (by simpa [jsTrimCh] using hr)
    
      simp [this]
  rw [h1, List.rdropWhile_idempotent]


theorem firstLineIndent_of_trimmed {X r : List Char} (h : jsTrimCh X = r) :
    firstLineIndent r = [] := by
  cases hr : r with
  | nil => rfl
  | cons c cs =>
    have hc : jsIsSpace c = false := jsTrimCh_head_false (hr ▸ h)
    have hcn : c ≠ '\n' := by
      intro hcn
      rw [hcn] at hc
      simp [jsIsSpace] at hc
    unfold firstLineIndent
    simp only [splitLinesCh, if_neg hcn]
    rcases hs : splitLinesCh cs with _ | ⟨l0, ls⟩
    · exact absurd hs (splitLinesCh_ne_nil cs)
    · simp [List.takeWhile_cons, hc]

theorem dedentLine_nil (line : List Char) : dedentLine [] line = line := by
  simp [dedentLine, List.isPrefixOf]

/-- Dedenting with the result's own (empty) indent is the identity, so a
second pass of `cleanCodeTextCh` only re-splits, re-joins and re-trims. -/
theorem cleanCodeTextCh_idem (l : List Char) :
    cleanCodeTextCh (cleanCodeTextCh l) = cleanCodeTextCh l := by
  generalize hrr : cleanCodeTextCh l = r
  have hX : jsTrimCh (joinLinesCh ((splitLinesCh l).map
      (dedentLine (firstLineIndent l)))) = r := hrr
  have hind : firstLineIndent r = [] := firstLineIndent_of_trimmed hX
  show cleanCodeTextCh r = r
  unfold cleanCodeTextCh
  rw [hind]
  have hmap : ((splitLinesCh r).map (dedentLine [])) = splitLinesCh r := by
    rw [List.map_congr_left (fun line _ => dedentLine_nil line)]
    exact List.map_id' _
  rw [hmap, joinLinesCh_splitLinesCh, ← hX]
  exact jsTrimCh_idem _


/-- C7: `parseAttributeString` applied to the exact input
`"role=hero width=1200 .featured #main autoplay"` returns the map with
`role = "hero"`, `width` staying the string `"1200"`, `id = "main"`,
`autoplay` becoming the boolean `true`, and the single `.featured` class
becoming the `class` entry. -/
theorem parseAttributeString_example_c7 :
    parseAttributeString "role=hero width=1200 .featured #main autoplay" =
      [("role", .str "hero"), ("width", .str "1200"), ("id", .str "main"),
       ("autoplay", .bool true), ("class", .str "featured")] := by
  decide

/-- C8: code-body dedenting is idempotent; when every line of the input starts
with the leading-whitespace prefix of the first line, `cleanCodeText` removes
exactly that prefix from every line and trims the surrounding whitespace (in
particular surrounding blank lines); and a line that does not start with that
prefix is left unmodified by the dedent step. -/
theorem cleanCodeText_dedent_spec (s : String) :
    cleanCodeText (cleanCodeText s) = cleanCodeText s ∧
    ((∀ line ∈ splitLinesCh s.toList, (firstLineIndent s.toList).isPrefixOf line) →
      cleanCodeText s = ⟨jsTrimCh (joinLinesCh ((splitLinesCh s.toList).map
        (fun line => line.drop (firstLineIndent s.toList).length)))⟩) ∧
    (∀ line : List Char, ¬ (firstLineIndent s.toList).isPrefixOf line →
      dedentLine (firstLineIndent s.toList) line = line) := by
  refine ⟨?_, ?_, ?_⟩
  · exact congrArg String.mk (cleanCodeTextCh_idem s.toList)
  · intro h
    unfold cleanCodeText cleanCodeTextCh
    refine congrArg String.mk ?_
    refine congrArg (fun m => jsTrimCh (joinLinesCh m)) ?_
    exact List.map_congr_left (fun line hline => by
      unfold dedentLine
      rw [if_pos (h line hline)])
  · intro line hnp
    unfold dedentLine
    rw [if_neg hnp]

/-- Witness for C8's conditional parts at the concrete input "  a\n  b"
(every line indented by two spaces) and the concrete unprefixed line "x". -/
theorem cleanCodeText_dedent_spec_witness :
    cleanCodeText "  a\n  b" =
      ⟨jsTrimCh (joinLinesCh ((splitLinesCh "  a\n  b".toList).map
        (fun line => line.drop (firstLineIndent "  a\n  b".toList).length)))⟩ ∧
    dedentLine (firstLineIndent "  a\n  b".toList) "x".toList = "x".toList :=
  ⟨(cleanCodeText_dedent_spec "  a\n  b").2.1 (by decide),
   (cleanCodeText_dedent_spec "  a\n  b").2.2 "x".toList (by decide)⟩


/-- A mark `{ type }` or `{ type, attrs }` attached to a node; an absent
`attrs` key is `none`. -/
structure Mark where
  type : String
  attrs : Option (List (String × JValue)) := none

/-- Document nodes.  `jsNull` is the JavaScript `null` that `parseBlock` can
leave inside a `blockquote`'s `flatMap`-built content; `node` carries the
`type` discriminator and the optional `attrs` / `content` / `text` / `marks`
keys (absent keys are `none`). -/
inductive Node where
  | jsNull
  | node (type : String) (attrs : Option (List (String × JValue)))
         (content : Option (List Node)) (text : Option String)
         (marks : Option (List Mark))

/-- The `type` of a node (the empty string for the JavaScript `null`). -/
def Node.typeOf : Node → String
  | .jsNull => ""
  | .node t _ _ _ _ => t

/-- The `attrs` object of a node, when present. -/
def Node.attrsOf : Node → Option (List (String × JValue))
  | .jsNull => none
  | .node _ a _ _ _ => a

/-- The `content` array of a node, when present. -/
def Node.contentOf : Node → Option (List Node)
  | .jsNull => none
  | .node _ _ c _ _ => c

/-- The `marks` array of a node, when present. -/
def Node.marksOf : Node → Option (List Mark)
  | .jsNull => none
  | .node _ _ _ _ m => m

/-- Whether a node is the JavaScript `null`. -/
def Node.isNullLit : Node → Bool
  | .jsNull => true
  | .node _ _ _ _ _ => false

/-- A text node `{ type: "text", text }` (no `marks` key). -/
def mkText (s : String) : Node :=
  .node "text" none none (some s) none

/-- A text node `{ type: "text", marks, text }`. -/
def mkTextM (s : String) (marks : List Mark) : Node :=
  .node "text" none none (some s) (some marks)

/-- A paragraph node `{ type: "paragraph", content }`. -/
def mkPara (content : List Node) : Node :=
  .node "paragraph" none (some content) none none

/-- The object spread `{...node, marks: [...(node.marks || []), mark]}` used
by the strong / em / span branches of `parseInline`: the new mark is appended
after the marks already present.  (`parseInline` node lists never contain the
JavaScript `null`, so spreading it never happens; it is mapped to itself.) -/
def addMark (m : Mark) : Node → Node
  | .jsNull => .jsNull
  | .node t a c tx mk => .node t a c tx (some (mk.getD [] ++ [m]))

/-- Marked tokens, as consumed by the transformation pipeline.  Each carries
the fields the pipeline reads: `raw` (exact source slice), `text`
(entity-encoded text) where used, pre-lexed child `tokens`, and kind-specific
fields.  List items and table cells are represented by their child token
lists.  `other` covers every further token kind (`space`, block-level
constructs unknown to the transformer, ...). -/
inductive Token where
  | text (raw : String)
  | strong (raw : String) (tokens : List Token)
  | em (raw : String) (tokens : List Token)
  | codespan (raw : String) (text : String)
  | html (raw : String) (text : String)
  | br (raw : String)
  | span (raw : String) (text : String) (attrs : AttrMap) (tokens : List Token)
  | link (raw : String) (text : String) (href : String) (title : Option String)
         (attrs : AttrMap) (tokens : List Token)
  | image (raw : String) (text : String) (href : String) (title : Option String)
          (attrs : AttrMap)
  | paragraph (raw : String) (tokens : List Token)
  | heading (raw : String) (depth : Nat) (tokens : List Token)
  | blockquote (raw : String) (tokens : List Token)
  | hr (raw : String)
  | code (raw : String) (lang : Option String) (text : String)
  | list (raw : String) (ordered : Bool) (start : Option Int)
         (items : List (List Token))
  | table (raw : String) (align : List (Option String))
          (header : List (List Token)) (rows : List (List (List Token)))
  | other (type : String) (raw : String) (text : String)

/-- The `raw` source slice of a token. -/
def Token.rawOf : Token → String
  | .text raw => raw
  | .strong raw _ => raw
  | .em raw _ => raw
  | .codespan raw _ => raw
  | .html raw _ => raw
  | .br raw => raw
  | .span raw _ _ _ => raw
  | .link raw _ _ _ _ _ => raw
  | .image raw _ _ _ _ => raw
  | .paragraph raw _ => raw
  | .heading raw _ _ => raw
  | .blockquote raw _ => raw
  | .hr raw => raw
  | .code raw _ _ => raw
  | .list raw _ _ _ => raw
  | .table raw _ _ _ => raw
  | .other _ raw _ => raw

/-- Replace every non-overlapping occurrence of `pat` (left to right) by
`rep`, as `String.prototype.replace` with a global pattern does.  The fuel
argument only serves termination (every step consumes at least one input
character, so `length + 1` is always enough). -/
def replaceSeqCh : Nat → List Char → List Char → List Char → List Char
  | 0, _, _, l => l
  | _ + 1, _, _, [] => []
  | fuel + 1, pat, rep, c :: cs =>
    if pat ≠ [] && pat.isPrefixOf (c :: cs) then
      rep ++ replaceSeqCh fuel pat rep ((c :: cs).drop pat.length)
    else
      c :: replaceSeqCh fuel pat rep cs

/-- String-level global replace. -/
def jsReplaceAll (s pat rep : String) : String :=
  ⟨replaceSeqCh (s.length + 1) pat.toList rep.toList s.toList⟩

/-- The HTML-entity decoding `parseInline` performs on `token.text`:
`&#39;` to an apostrophe, `&quot;` to a double quote, `&amp;` to an
ampersand, in that order, all occurrences. -/
def jsDecodeEntities (s : String) : String :=
  jsReplaceAll (jsReplaceAll (jsReplaceAll s "&#39;" "'") "&quot;" "\"") "&amp;" "&"

/-- The newline stripping `token.raw.replace(/\n/g, "")`. -/
def jsReplaceNewlines (s : String) : String :=
  jsReplaceAll s "\n" ""

/-- Substring containment over character lists (JS `String.prototype.includes`). -/
def listContainsSeq (sub : List Char) : List Char → Bool
  | [] => sub.isPrefixOf ([] : List Char)
  | c :: t => sub.isPrefixOf (c :: t) || listContainsSeq sub t

/-- JS `s.includes(sub)`. -/
def jsIncludes (s sub : String) : Bool :=
  listContainsSeq sub.toList s.toList

/-- JS `s.startsWith(p)`. -/
def jsStartsWith (s p : String) : Bool :=
  p.toList.isPrefixOf s.toList

/-- JS `s.substring(n)`. -/
def jsSubstrFrom (s : String) (n : Nat) : String :=
  ⟨s.toList.drop n⟩

/-- String-level wrapper of `jsTrimCh` (JS `s.trim()`). -/
def jsTrimStr (s : String) : String :=
  ⟨jsTrimCh s.toList⟩

/-- The word class `\w` used by the `\b` boundaries of `/\bbutton\b/`. -/
def isJsWordChar (c : Char) : Bool :=
  ('a' ≤ c && c ≤ 'z') || ('A' ≤ c && c ≤ 'Z') || ('0' ≤ c && c ≤ '9') || c = '_'

/-- Scan for the first occurrence of `button` delimited by word boundaries and
remove it; `prev` is the character preceding the scan position. -/
def replaceWordButtonCh : Option Char → List Char → List Char
  | _, [] => []
  | prev, c :: cs =>
    if "button".toList.isPrefixOf (c :: cs) &&
        (match prev with | none => true | some p => !isJsWordChar p) &&
        (match (c :: cs).drop 6 with | [] => true | d :: _ => !isJsWordChar d) then
      (c :: cs).drop 6
    else
      c :: replaceWordButtonCh (some c) cs

/-- JS `className.replace(/\bbutton\b/, "")` (first match only). -/
def jsStripWordButton (s : String) : String :=
  ⟨replaceWordButtonCh none s.toList⟩

/-- Whether a whole-word occurrence of `button` exists, with the same `\b`
boundaries; this is the test the spec claims `parseInline` performs on the
`class` attribute ("matching the whole word `button`"), stated here so the
claim can be compared with the substring test the code actually uses. -/
def hasWordButtonCh : Option Char → List Char → Bool
  | _, [] => false
  | prev, c :: cs =>
    ("button".toList.isPrefixOf (c :: cs) &&
        (match prev with | none => true | some p => !isJsWordChar p) &&
        (match (c :: cs).drop 6 with | [] => true | d :: _ => !isJsWordChar d)) ||
      hasWordButtonCh (some c) cs

/-- Whole-word `button` test on a class string (the spec's reading of the
button condition). -/
def specWholeWordButton (s : String) : Bool :=
  hasWordButtonCh none s.toList

/-- Decimal digit accumulation for `jsParseInt`. -/
def digitsToNat (ds : List Char) : Nat :=
  ds.foldl (fun a c => a * 10 + (c.toNat - '0'.toNat)) 0

/-- JS `parseInt(s, 10)`: skip leading whitespace, optional sign, then a
digit run; no digits means `NaN`, modelled as `none`. -/
def jsParseInt (s : String) : Option Int :=
  let l := s.toList.dropWhile jsIsSpace
  match l with
  | '-' :: rest =>
    let ds := rest.takeWhile Char.isDigit
    if ds.isEmpty then none else some (-(digitsToNat ds : Int))
  | '+' :: rest =>
    let ds := rest.takeWhile Char.isDigit
    if ds.isEmpty then none else some (digitsToNat ds : Int)
  | _ =>
    let ds := l.takeWhile Char.isDigit
    if ds.isEmpty then none else some (digitsToNat ds : Int)

/-- `parseInt` on an attribute value (a boolean is coerced to its string
form first, which never yields digits). -/
def jsParseIntA : AValue → Option Int
  | .str s => jsParseInt s
  | .bool b => jsParseInt (if b then "true" else "false")

/-- The conditional spread `...(cond && { k: v })`. -/
def spreadIf (cond : Bool) (k : String) (v : JValue) : List (String × JValue) :=
  if cond then [(k, v)] else []

/-- The conditional spread `...(x && { k: x })` for an attribute value that
may be absent. -/
def spreadTruthy (o : Option AValue) (k : String) : List (String × JValue) :=
  match o with
  | some v => if v.truthy then [(k, v.toJ)] else []
  | none => []

/-- The conditional spread `...(x !== undefined && { k: x })`. -/
def spreadDefined (o : Option AValue) (k : String) : List (String × JValue) :=
  match o with
  | some v => [(k, v.toJ)]
  | none => []

/-- The conditional spread `...(x && { k: x })` for an optional string
computed by the transformer itself. -/
def spreadStr (o : Option String) (k : String) : List (String × JValue) :=
  match o with
  | some s => [(k, .jstr s)]
  | none => []

/-- The spread `...(w && { k: parseInt(w, 10) || w })` used for `width` and
`height`: a truthy value is parsed as an integer, falling back to the original
value when the parse yields `NaN` or `0` (both falsy). -/
def spreadIntish (o : Option AValue) (k : String) : List (String × JValue) :=
  match o with
  | some v =>
    if v.truthy then
      [(k, match jsParseIntA v with
           | some n => if n ≠ 0 then .jnum n else v.toJ
           | none => v.toJ)]
    else []
  | none => []

/-- The `x || null` coercion for strings: the empty string becomes `null`. -/
def strOrNull (s : String) : JValue :=
  if s = "" then .jnull else .jstr s

/-- The `x || null` coercion for an optional string (e.g. `token.title`). -/
def optStrOrNull : Option String → JValue
  | some s => strOrNull s
  | none => .jnull

/-- The icon protocol alternation `(lucide|heroicons|phosphor|tabler|feather|icon)`. -/
def iconLibs : List String :=
  ["lucide", "heroicons", "phosphor", "tabler", "feather", "icon"]

/-- The character class of `.` in a JS regex without the `s` flag: anything
but a line terminator. -/
def jsDotChar (c : Char) : Bool :=
  !(c = '\n' || c = '\r' || c.val = 0x2028 || c.val = 0x2029)

/-- The match `token.href.match(/^(lucide|heroicons|phosphor|tabler|feather|icon):(.+)$/)`:
library and non-empty line-terminator-free remainder. -/
def iconMatch (href : String) : Option (String × String) :=
  iconLibs.findSome? (fun lib =>
    if jsStartsWith href (lib ++ ":") then
      let rest : String := ⟨href.toList.drop (lib.length + 1)⟩
      if rest ≠ "" && rest.toList.all jsDotChar then some (lib, rest) else none
    else none)

/-- `href.includes(":")`. -/
def jsContainsColon (href : String) : Bool :=
  href.toList.any (fun c => c = ':')

/-- `href.substring(0, colonIndex)` for the first colon (legacy `role:path`). -/
def legacyRole (href : String) : String :=
  ⟨href.toList.takeWhile (fun c => c ≠ ':')⟩

/-- `href.substring(colonIndex + 1)` for the first colon. -/
def legacySrc (href : String) : String :=
  ⟨(href.toList.dropWhile (fun c => c ≠ ':')).drop 1⟩

/-- The `attrRole || role || "image"` resolution, given the role derived from
the href (`none` when no branch assigned it). -/
def roleOrImage : Option String → JValue
  | some r => if r ≠ "" then .jstr r else .jstr "image"
  | none => .jstr "image"



/-- The span mark of `parseInline`'s span branch: truthy `class` / `id` are
folded into the mark's own fields, the remaining attributes pass through. -/
def spanMarkOf (attrs : AttrMap) : Mark :=
  ⟨"span",
    some (spreadTruthy (jsGetA attrs "class") "class" ++
          spreadTruthy (jsGetA attrs "id") "id" ++
          (removeKeys attrs ["class", "id"]).map (fun kv => (kv.1, kv.2.toJ)))⟩

/-- The button test of `parseInline`'s link branch:
`token.href.startsWith("button:") || token.attrs?.class?.includes("button")`.
The `includes` call is a substring test.  (On a boolean `class` value the
JavaScript expression would throw a `TypeError`; that unreachable-in-practice
case is modelled as `false`, and the theorems below hypothesise a string or
absent `class`.) -/
def linkIsButton (href : String) (attrs : AttrMap) : Bool :=
  jsStartsWith href "button:" ||
  (match jsGetA attrs "class" with
   | some (.str s) => jsIncludes s "button"
   | some (.bool _) => false
   | none => false)

/-- The effective href of a link: a leading `button:` prefix is stripped. -/
def linkHref (href : String) : String :=
  if jsStartsWith href "button:" then jsSubstrFrom href 7 else href

/-- The `class` carried on a link/button mark: the word `button` is removed
(whole-word, first occurrence), the result trimmed, and an empty result
dropped. -/
def linkClassName (attrs : AttrMap) : Option String :=
  match jsGetA attrs "class" with
  | some (.str s) =>
    if s ≠ "" then
      (let t := jsTrimStr (jsStripWordButton s)
       if t = "" then none else some t)
    else none
  | some (.bool _) => none
  | none => none

/-- The mark attrs object of `parseInline`'s link branch. -/
def linkMarkAttrs (href : String) (title : Option String) (attrs : AttrMap) :
    List (String × JValue) :=
  [("href", .jstr (linkHref href)), ("title", optStrOrNull title)] ++
  spreadIf (linkIsButton href attrs) "variant"
    ((jsGetA attrs "variant").getD (.str "primary")).toJ ++
  spreadDefined (jsGetA attrs "download") "download" ++
  spreadTruthy (jsGetA attrs "target") "target" ++
  spreadTruthy (jsGetA attrs "rel") "rel" ++
  spreadTruthy (jsGetA attrs "size") "size" ++
  spreadTruthy (jsGetA attrs "icon") "icon" ++
  spreadStr (linkClassName attrs) "class"

/-- The legacy `role:url` condition of the image branch. -/
def imageLegacy (href : String) : Bool :=
  jsContainsColon href && !jsStartsWith href "http"

/-- The `role` variable of the image branch as derived from the href alone. -/
def imageRole (href : String) : Option String :=
  match iconMatch href with
  | some _ => some "icon"
  | none => if imageLegacy href then some (legacyRole href) else none

/-- The `src` variable of the image branch: for a known icon library it is
`null`, for the generic `icon:` protocol it is the remainder, for the legacy
`role:url` form the part after the colon, otherwise the href itself. -/
def imageSrc (href : String) : JValue :=
  match iconMatch href with
  | some (lib, rest) => if lib = "icon" then .jstr rest else .jnull
  | none => if imageLegacy href then .jstr (legacySrc href) else .jstr href

/-- The `attrRole || role || "image"` resolution of the image branch. -/
def imageFinalRole (href : String) (attrs : AttrMap) : JValue :=
  match jsGetA attrs "role" with
  | some v => if v.truthy then v.toJ else roleOrImage (imageRole href)
  | none => roleOrImage (imageRole href)

/-- The attrs object of the image node emitted by `parseInline`. -/
def imageNodeAttrs (txt href : String) (title : Option String)
    (attrs : AttrMap) : List (String × JValue) :=
  [("src", imageSrc href), ("caption", optStrOrNull title),
   ("alt", strOrNull (jsDecodeEntities txt)),
   ("role", imageFinalRole href attrs)] ++
  (match iconMatch href with
   | some (lib, _) => if lib ≠ "icon" then [("library", .jstr lib)] else []
   | none => []) ++
  (match iconMatch href with
   | some (_, rest) => if rest ≠ "" then [("name", .jstr rest)] else []
   | none => []) ++
  spreadTruthy (jsGetA attrs "size") "size" ++
  spreadTruthy (jsGetA attrs "color") "color" ++
  spreadIntish (jsGetA attrs "width") "width" ++
  spreadIntish (jsGetA attrs "height") "height" ++
  spreadTruthy (jsGetA attrs "loading") "loading" ++
  spreadTruthy (jsGetA attrs "poster") "poster" ++
  spreadTruthy (jsGetA attrs "preview") "preview" ++
  spreadDefined (jsGetA attrs "autoplay") "autoplay" ++
  spreadDefined (jsGetA attrs "muted") "muted" ++
  spreadDefined (jsGetA attrs "loop") "loop" ++
  spreadDefined (jsGetA attrs "controls") "controls" ++
  spreadTruthy (jsGetA attrs "fit") "fit" ++
  spreadTruthy (jsGetA attrs "position") "position" ++
  spreadTruthy (jsGetA attrs "class") "class" ++
  spreadTruthy (jsGetA attrs "id") "id"

mutual

/-- Embedding of `parseInline` (src/parser/inline.js).  It returns the node
list the JavaScript function returns, together with the input token as it
stands after the call: the `text` branch mutates `token.raw` in place
(stripping newlines) when `removeNewLine` is set, and recursive branches
propagate mutations of child tokens; every other field is untouched.  The
unused `schema` parameter of the source is omitted. -/
def parseInline (token : Token) (removeNewLine : Bool) : List Node × Token :=
  match token with
  | .text raw =>
    let raw2 := if removeNewLine && raw ≠ "" then jsReplaceNewlines raw else raw
    (if raw2 = "" then [] else [mkText raw2], .text raw2)
  | .strong raw ts =>
    let r := parseInlineList ts removeNewLine
    ((r.1.map (List.map (addMark ⟨"bold", none⟩))).flatten, .strong raw r.2)
  | .em raw ts =>
    let r := parseInlineList ts removeNewLine
    ((r.1.map (List.map (addMark ⟨"italic", none⟩))).flatten, .em raw r.2)
  | .html raw txt => ([mkText raw], .html raw txt)
  | .br raw => ([mkText "\n"], .br raw)
  | .codespan raw txt =>
    ([mkTextM (jsDecodeEntities txt) [⟨"code", none⟩]], .codespan raw txt)
  | .span raw txt attrs ts =>
    if ts.isEmpty then
      ([mkTextM txt [spanMarkOf attrs]], .span raw txt attrs ts)
    else
      let r := parseInlineList ts removeNewLine
      ((r.1.map (List.map (addMark (spanMarkOf attrs)))).flatten,
       .span raw txt attrs r.2)
  | .link raw txt href title attrs ts =>
    ([mkTextM (jsDecodeEntities txt)
        [⟨if linkIsButton href attrs then "button" else "link",
          some (linkMarkAttrs href title attrs)⟩]],
     .link raw txt href title attrs ts)
  | .image raw txt href title attrs =>
    ([Node.node "image" (some (imageNodeAttrs txt href title attrs))
        none none none],
     .image raw txt href title attrs)
  | t =>
    (if t.rawOf = "" then [] else [mkText t.rawOf], t)

/-- Sequential transformation of a child token list (the `flatMap` loops of
`parseInline`), collecting the per-child node lists and the children as they
stand after the calls. -/
def parseInlineList (ts : List Token) (removeNewLine : Bool) :
    List (List Node) × List Token :=
  match ts with
  | [] => ([], [])
  | t :: rest =>
    let r := parseInline t removeNewLine
    let rs := parseInlineList rest removeNewLine
    (r.1 :: rs.1, r.2 :: rs.2)

end


/-- The strict comparison `v !== null` of `parseBlock`, as a test for being
exactly the JavaScript `null` (note `undefined !== null` holds). -/
def JValue.isNullJS : JValue → Bool
  | .jnull => true
  | _ => false

/-- The external JSON / YAML deserializers (out-of-scope collaborators reached
through a `parse(text) -> value | throws` contract); `none` models a thrown
exception. -/
structure ExtParsers where
  json : String → Option JValue
  yaml : String → Option JValue

/-- The `x || null` coercion for strings, as an `Option` (used by
`processCodeInfo` for `parts[0] || null` and `parts[1] || null`, where a
missing element is the empty fallback). -/
def String.takeNonEmpty (s : String) : Option String :=
  if s = "" then none else some s

/-- Split at a separator character, as `info.split(":")` does: splitting the
empty string yields `[""]` and separators at the edges yield empty parts. -/
def splitOnCh (sep : Char) : List Char → List (List Char)
  | [] => [[]]
  | c :: cs =>
    if c = sep then [] :: splitOnCh sep cs
    else
      match splitOnCh sep cs with
      | [] => [[c]]
      | l :: ls => (c :: l) :: ls

/-- Embedding of `processCodeInfo` (src/parser/block.js): split the fence
info string on `:`; empty segments and a missing info string give `null`. -/
def processCodeInfo (info : Option String) : Option String × Option String :=
  match info with
  | none => (none, none)
  | some s =>
    if s = "" then (none, none)
    else
      let parts := (splitOnCh ':' s.toList).map (fun l => (⟨l⟩ : String))
      ((parts.getD 0 "").takeNonEmpty, (parts.getD 1 "").takeNonEmpty)

/-- ASCII lowering of a character, the behaviour of
`String.prototype.toLowerCase` on the language identifiers handled here. -/
def jsToLowerChar (c : Char) : Char :=
  if 'A' ≤ c && c ≤ 'Z' then Char.ofNat (c.toNat + 32) else c

/-- The `language.toLowerCase()` coercion. -/
def jsToLower (s : String) : String :=
  ⟨s.toList.map jsToLowerChar⟩

/-- Embedding of `parseCodeBlockData` (src/parser/block.js): empty text gives
`null`; for languages `json` / `yaml` / `yml` (case-insensitive) the external
deserializer is consulted, a thrown exception being caught into `null`; other
languages give `null`.  A successful parse whose value is itself `null` is
indistinguishable from these failures. -/
def parseCodeBlockData (env : ExtParsers) (text : String)
    (language : Option String) : JValue :=
  if text = "" then .jnull
  else
    let lang := jsToLower (language.getD "")
    if lang = "json" then (env.json text).getD .jnull
    else if lang = "yaml" || lang = "yml" then (env.yaml text).getD .jnull
    else .jnull

/-- Alignment of a table cell: `alignments[index] || null`. -/
def alignAt (align : List (Option String)) (i : Nat) : JValue :=
  match align.getD i none with
  | some s => if s = "" then .jnull else .jstr s
  | none => .jnull

/-- Embedding of `parseTableRow` (src/parser/tables.js): each cell becomes a
`tableCell` with colspan/rowspan 1, its column alignment and the header flag,
wrapping one paragraph of inline-transformed cell content. -/
def parseTableRow (align : List (Option String)) (isHeader : Bool)
    (row : List (List Token)) : Node :=
  .node "tableRow" none
    (some ((row.enum).map (fun ic =>
      Node.node "tableCell"
        (some [("colspan", .jnum 1), ("rowspan", .jnum 1),
               ("align", alignAt align ic.1), ("header", .jbool isHeader)])
        (some [mkPara ((parseInlineList ic.2 false).1.flatten)])
        none none)))
    none none

/-- Embedding of `parseTable` (src/parser/tables.js). -/
def parseTable (align : List (Option String)) (header : List (List Token))
    (rows : List (List (List Token))) : Node :=
  .node "table" none
    (some (parseTableRow align true header ::
           rows.map (parseTableRow align false)))
    none none

/-- Embedding of `parseParagraph` (src/parser/block.js): flat-map the
pre-parsed inline tokens through `parseInline` (with the default
`removeNewLine = false`). -/
def parseParagraph (ts : List Token) : List Node :=
  (parseInlineList ts false).1.flatten

/-- The strict comparison `element.attrs?.role === "icon"`: true exactly when
the node's attrs carry a `role` entry equal to the string `"icon"`. -/
def imageRoleIsIcon (el : Node) : Bool :=
  match el.attrsOf with
  | some a =>
    (match jsGetJ a "role" with
     | some (.jstr s) => s == "icon"
     | _ => false)
  | none => false

/-- The hoisting condition of `parseBlock`'s paragraph branch: non-icon
images (strict `!==` comparison of `element.attrs?.role` with `"icon"`) and
`inline_child_ref` elements are extracted to the root level. -/
def hoistCond (el : Node) : Bool :=
  (el.typeOf == "image" && !(imageRoleIsIcon el)) ||
  el.typeOf == "inline_child_ref"

/-- Close the open paragraph accumulator, if any. -/
def closePara : Option (List Node) → List Node
  | none => []
  | some l => [mkPara l]

/-- The accumulator loop of the paragraph branch: `res` is the emitted
prefix, `cur` the currently open paragraph. -/
def hoistGo : List Node → List Node → Option (List Node) → List Node
  | [], res, cur => res ++ closePara cur
  | e :: es, res, cur =>
    if hoistCond e then hoistGo es (res ++ closePara cur ++ [e]) none
    else hoistGo es res (some (cur.getD [] ++ [e]))

/-- The image-hoisting pass of `parseBlock`'s paragraph branch. -/
def hoistImages (content : List Node) : List Node :=
  hoistGo content [] none

/-- Results of `parseBlock`: JavaScript `null`, a single node, or an array of
nodes (the paragraph branch). -/
inductive BlockResult where
  | none
  | one (n : Node)
  | many (ns : List Node)

/-- The contribution of a `BlockResult` to a `flatMap`-built array (JS
`flatMap` keeps `null` as an element and flattens arrays). -/
def BlockResult.flatMapJS : BlockResult → List Node
  | .none => [Node.jsNull]
  | .one n => [n]
  | .many ns => ns

/-- The contribution of a `BlockResult` under the assembler's `if (node)`
guard (JS `null` is skipped, arrays are spread). -/
def BlockResult.pushed : BlockResult → List Node
  | .none => []
  | .one n => [n]
  | .many ns => ns

mutual

/-- Embedding of `parseBlock` (src/parser/block.js, the revision that carries
the tagged-data logic).  HTML comments and unknown kinds give `null`; the
paragraph branch hoists non-icon images; `code` disambiguates tagged data
blocks from display code blocks; `list` and `table` delegate. -/
def parseBlock (env : ExtParsers) (token : Token) : BlockResult :=
  match token with
  | .html _ txt =>
    -- `if (token.type === "html" && token.text.startsWith("<!--")) return null;`
    -- a non-comment block HTML token matches no later branch either, so it
    -- also falls through to the final `return null`.
    if jsStartsWith txt "<!--" then .none else .none
  | .paragraph _ ts =>
    let content := parseParagraph ts
    if content.isEmpty then .none
    else .many (hoistImages content)
  | .heading _ depth ts =>
    .one (.node "heading"
      (some [("level", .jnum (Int.ofNat depth)), ("id", .jnull)])
      (some (parseParagraph ts)) none none)
  | .blockquote _ ts =>
    .one (.node "blockquote" none (some (parseBlockChildren env ts)) none none)
  | .hr _ =>
    .one (.node "divider"
      (some [("style", .jstr "line"), ("size", .jstr "normal")]) none none none)
  | .code _ lang text =>
    let li := processCodeInfo lang
    let rawText := cleanCodeText text
    match li.2 with
    | some tg =>
      let parsedData := parseCodeBlockData env rawText li.1
      if parsedData.isNullJS then
        .one (.node "codeBlock"
          (some [("language", optStrOrNull li.1), ("tag", .jstr tg)])
          (some [mkText rawText]) none none)
      else
        .one (.node "dataBlock"
          (some [("tag", .jstr tg), ("data", parsedData)]) none none none)
    | none =>
      .one (.node "codeBlock"
        (some [("language", optStrOrNull li.1)])
        (some [mkText rawText]) none none)
  | .list _ ordered start items =>
    .one (.node (if ordered then "orderedList" else "bulletList")
      (if ordered then some [("start", .jnum (start.getD 1))] else none)
      (some (parseListItems env items)) none none)
  | .table _ align header rows =>
    .one (parseTable align header rows)
  | _ => .none

/-- The `token.tokens.flatMap((t) => parseBlock(t, schema))` of the
blockquote branch, with JavaScript `flatMap` semantics (`null` results stay
as elements, arrays are flattened). -/
def parseBlockChildren (env : ExtParsers) (ts : List Token) : List Node :=
  match ts with
  | [] => []
  | t :: rest => (parseBlock env t).flatMapJS ++ parseBlockChildren env rest

/-- Modelled from the spec: the list transformer (src/parser/lists.js is not
part of the provided sources; only its import is).  Per spec section 4.5 each
item's child tokens are block-transformed recursively into the `listItem`
content, which always holds at least one paragraph. -/
def parseListItems (env : ExtParsers) (items : List (List Token)) : List Node :=
  match items with
  | [] => []
  | toks :: rest =>
    let ns := (parseBlockChildren env toks).filter (fun n => !n.isNullLit)
    Node.node "listItem" none
      (some (if ns.isEmpty then [mkPara []] else ns)) none none ::
    parseListItems env rest

end

/-- Modelled from the spec: `isEmptyContent` (src/parser/utils.js is not part
of the provided sources).  Per spec sections 3 and 4.7 a paragraph is dropped
exactly when it has zero inline children, so empty or absent content counts
as empty. -/
def isEmptyContent : Option (List Node) → Bool
  | none => true
  | some l => l.isEmpty

/-- The final filter of `parseMarkdownContent`: drop `null` entries and
paragraphs with empty content. -/
def docKeep (n : Node) : Bool :=
  !n.isNullLit && !(n.typeOf == "paragraph" && isEmptyContent n.contentOf)

/-- Embedding of `parseMarkdownContent` (src/parser/index.js): transform each
top-level token, spread array results, drop `null`s, filter out empty
paragraphs and wrap in a `doc` node.  (The `skipNext` flag of the source loop
is never set, its only writer being commented out, so the loop is a plain
`flatMap`.) -/
def parseMarkdownContent (env : ExtParsers) (tokens : List Token) : Node :=
  let content := tokens.flatMap (fun t => (parseBlock env t).pushed)
  .node "doc" none (some (content.filter docKeep)) none none


/-- C3: marks are ordered innermost-to-outermost.  For the token tree of
`**_x_**` the transformer emits one text node `"x"` with marks exactly
`[italic, bold]`; for the tree of `*x**y***` the nested run carries
`[bold, italic]`; and in general the strong / em branches append their mark
after the marks already present on every node produced from the inner
tokens. -/
theorem mark_order_c3 :
    (parseInline (.strong "**_x_**" [.em "_x_" [.text "x"]]) false).1 =
      [mkTextM "x" [⟨"italic", none⟩, ⟨"bold", none⟩]] ∧
    (parseInline (.em "*x**y***" [.text "x", .strong "**y**" [.text "y"]])
        false).1 =
      [mkTextM "x" [⟨"italic", none⟩],
       mkTextM "y" [⟨"bold", none⟩, ⟨"italic", none⟩]] ∧
    (∀ (raw : String) (ts : List Token) (rnl : Bool),
      (parseInline (.strong raw ts) rnl).1 =
        ((parseInlineList ts rnl).1.flatten).map (addMark ⟨"bold", none⟩)) ∧
    (∀ (raw : String) (ts : List Token) (rnl : Bool),
      (parseInline (.em raw ts) rnl).1 =
        ((parseInlineList ts rnl).1.flatten).map (addMark ⟨"italic", none⟩)) ∧
    (∀ (t : String) (a : Option (List (String × JValue)))
       (c : Option (List Node)) (tx : Option String)
       (mk : Option (List Mark)) (m : Mark),
      (addMark m (.node t a c tx mk)).marksOf = some (mk.getD [] ++ [m])) := by
  refine ⟨rfl, rfl, ?_, ?_, ?_⟩
  · intro raw ts rnl
    simp only [parseInline]
    exact (List.map_flatten _ _).symm
  · intro raw ts rnl
    simp only [parseInline]
    exact (List.map_flatten _ _).symm
  · intro t a c tx mk m
    rfl

mutual

/-- With `removeNewLine = false` the inline transformer leaves its token
untouched. -/
theorem parseInline_noMutation (t : Token) : (parseInline t false).2 = t := by
  cases t with
  | text raw => simp [parseInline]
  | strong raw ts =>
    simp only [parseInline]
    rw [parseInlineList_noMutation ts]
  | em raw ts =>
    simp only [parseInline]
    rw [parseInlineList_noMutation ts]
  | span raw txt attrs ts =>
    simp only [parseInline]
    split
    · rfl
    · simp only []
      rw [parseInlineList_noMutation ts]
  | _ => rfl

/-- List version of `parseInline_noMutation`. -/
theorem parseInlineList_noMutation (ts : List Token) :
    (parseInlineList ts false).2 = ts := by
  cases ts with
  | nil => rfl
  | cons t rest =>
    simp only [parseInlineList]
    rw [parseInline_noMutation t, parseInlineList_noMutation rest]

end


/-- C6 counterexample: with `removeNewLine = true` the inline transformer
writes back to the text token's `raw` field (newlines are stripped in place),
so the input token tree is not left unchanged. -/
theorem parseInline_mutation_counterexample_c6 :
    (parseInline (.text "a\nb") true).2 = .text "ab" ∧
    Token.text "ab" ≠ Token.text "a\nb" := by
  refine ⟨rfl, ?_⟩
  intro h
  injection h with h2
  exact absurd h2 (by decide)

/-- C6 as amended: a call with `removeNewLine = false` (the only way the
pipeline itself calls the transformer) leaves the input token unchanged; a
call with `removeNewLine = true` rewrites a text token's `raw` in place to
its newline-stripped form and changes nothing else of it; and equal inputs
give equal outputs (the transformer keeps no state across calls). -/
theorem parseInline_purity_amended_c6 :
    (∀ t : Token, (parseInline t false).2 = t) ∧
    (∀ raw : String, (parseInline (.text raw) true).2 =
      .text (if true && raw ≠ "" then jsReplaceNewlines raw else raw)) ∧
    (∀ (t t2 : Token) (b b2 : Bool), t = t2 → b = b2 →
      parseInline t b = parseInline t2 b2) := by
  refine ⟨parseInline_noMutation, fun raw => rfl, ?_⟩
  intro t t2 b b2 ht hb
  rw [ht, hb]

/-- Witness for the amended C6 at concrete inputs. -/
theorem parseInline_purity_amended_c6_witness :
    (parseInline (.text "a\nb") false).2 = .text "a\nb" ∧
    (parseInline (.text "a\nb") true).2 =
      .text (if true && "a\nb" ≠ "" then jsReplaceNewlines "a\nb" else "a\nb") ∧
    parseInline (.text "x") true = parseInline (.text "x") true :=
  ⟨parseInline_purity_amended_c6.1 (.text "a\nb"),
   parseInline_purity_amended_c6.2.1 "a\nb",
   parseInline_purity_amended_c6.2.2 (.text "x") (.text "x") true true rfl rfl⟩


/-- C4 counterexample: for a link whose `class` attribute is `"buttons"` the
code emits a `button` mark, although the href has no `button:` prefix and the
class does not match the whole word `button` — the detection is the substring
test `includes("button")`, not a whole-word match. -/
theorem link_button_counterexample_c4 :
    (parseInline (.link "l" "x" "https://e" none
        [("class", .str "buttons")] []) false).1 =
      [mkTextM "x" [⟨"button",
        some (linkMarkAttrs "https://e" none [("class", .str "buttons")])⟩]] ∧
    specWholeWordButton "buttons" = false ∧
    jsStartsWith "https://e" "button:" = false := by
  refine ⟨rfl, by decide, by decide⟩

/-- C4 as amended: the emitted text node carries a `button` mark exactly when
the href starts with `button:` or the parsed attributes contain a string
`class` value containing `button` as a substring (not only as a whole word);
otherwise the mark is a `link`; in either case the mark's href is the token
href with a leading `button:` prefix stripped. -/
theorem link_button_amended_c4 (raw txt href : String) (title : Option String)
    (attrs : AttrMap) (ts : List Token) (rnl : Bool)
    (hcls : jsGetA attrs "class" = none ∨
            ∃ s, jsGetA attrs "class" = some (.str s)) :
    (parseInline (.link raw txt href title attrs ts) rnl).1 =
      [mkTextM (jsDecodeEntities txt)
        [⟨if jsStartsWith href "button:" ||
             (match jsGetA attrs "class" with
              | some (.str s) => jsIncludes s "button"
              | _ => false) then "button" else "link",
          some (linkMarkAttrs href title attrs)⟩]] ∧
    jsGetJ (linkMarkAttrs href title attrs) "href" =
      some (.jstr (if jsStartsWith href "button:"
                   then jsSubstrFrom href 7 else href)) := by
  constructor
  · have hbtn : linkIsButton href attrs =
        (jsStartsWith href "button:" ||
         (match jsGetA attrs "class" with
          | some (.str s) => jsIncludes s "button"
          | _ => false)) := by
      unfold linkIsButton
      rcases hcls with h | ⟨s, h⟩ <;> rw [h]
    simp only [parseInline]
    rw [hbtn]
  · simp [linkMarkAttrs, linkHref, jsGetJ]

/-- Witness for the amended C4 at a link with class `"button primary"`. -/
theorem link_button_amended_c4_witness :
    (parseInline (.link "l" "Get" "https://e" none
        [("class", .str "button primary")] []) false).1 =
      [mkTextM (jsDecodeEntities "Get")
        [⟨if jsStartsWith "https://e" "button:" ||
             (match jsGetA [("class", AValue.str "button primary")] "class" with
              | some (.str s) => jsIncludes s "button"
              | _ => false) then "button" else "link",
          some (linkMarkAttrs "https://e" none
            [("class", .str "button primary")])⟩]] ∧
    jsGetJ (linkMarkAttrs "https://e" none
        [("class", .str "button primary")]) "href" =
      some (.jstr (if jsStartsWith "https://e" "button:"
                   then jsSubstrFrom "https://e" 7 else "https://e")) :=
  link_button_amended_c4 "l" "Get" "https://e" none
    [("class", .str "button primary")] [] false
    (Or.inr ⟨"button primary", rfl⟩)


theorem isPrefixOf_append_self (p t : List Char) :
    p.isPrefixOf (p ++ t) = true := by
  induction p with
  | nil => simp [List.isPrefixOf]
  | cons a as ih => simp [List.isPrefixOf, ih]

theorem jsStartsWith_head_ne {href p : String} {a b : Char} {l1 l2 : List Char}
    (hp : p.toList = a :: l1) (hh : href.toList = b :: l2)
    (hab : (a == b) = false) :
    jsStartsWith href p = false := by
  unfold jsStartsWith
  rw [hp, hh]
  simp [List.isPrefixOf, hab]

theorem jsStartsWith_proto {href : String} (lib rest : String)
    (hhref : href.toList = lib.toList ++ ':' :: rest.toList) :
    jsStartsWith href (lib ++ ":") = true := by
  unfold jsStartsWith
  have he : (lib ++ ":").toList = lib.toList ++ [':'] := rfl
  rw [he, hhref,
    show lib.toList ++ ':' :: rest.toList =
      (lib.toList ++ [':']) ++ rest.toList by simp]
  exact isPrefixOf_append_self _ _

theorem drop_proto {href : String} (lib rest : String)
    (hhref : href.toList = lib.toList ++ ':' :: rest.toList) :
    href.toList.drop (lib.length + 1) = rest.toList := by
  rw [hhref,
    show lib.toList ++ ':' :: rest.toList =
      (lib.toList ++ [':']) ++ rest.toList by simp,
    show lib.length + 1 = (lib.toList ++ [':']).length by
      rw [List.length_append]
      rfl]
  exact List.drop_left _ _


/-- Evaluation of the icon-protocol regex on an href of the form
`lib ++ ":" ++ rest` with `lib` one of the six protocol names and `rest` a
non-empty remainder free of line terminators. -/
theorem iconMatch_proto {href : String} (lib rest : String)
    (hlib : lib ∈ iconLibs) (hrest : rest ≠ "")
    (hdot : rest.toList.all jsDotChar = true)
    (hhref : href.toList = lib.toList ++ ':' :: rest.toList) :
    iconMatch href = some (lib, rest) := by
  have heta : ({ data := rest.data } : String) = rest := rfl
  have hdot2 : ∀ x ∈ rest.data, jsDotChar x = true := by
    simpa using hdot
  simp only [iconLibs, List.mem_cons, List.not_mem_nil, or_false] at hlib
  rcases hlib with rfl | rfl | rfl | rfl | rfl | rfl
  · have hsw : jsStartsWith href "lucide:" = true :=
      jsStartsWith_proto "lucide" rest hhref
    have hdrop : List.drop ("lucide".length + 1) href.data = rest.data :=
      drop_proto "lucide" rest hhref
    unfold iconMatch
    simp only [iconLibs, List.findSome?_cons, List.findSome?_nil]
    simp [hsw, hdrop, heta, hrest, iff_true_intro hdot2]
  · have hsw : jsStartsWith href "heroicons:" = true :=
      jsStartsWith_proto "heroicons" rest hhref
    have hdrop : List.drop ("heroicons".length + 1) href.data = rest.data :=
      drop_proto "heroicons" rest hhref
    have m0 : jsStartsWith href "lucide:" = false :=
      jsStartsWith_head_ne rfl (by rw [hhref]; rfl) (by decide)
    unfold iconMatch
    simp only [iconLibs, List.findSome?_cons, List.findSome?_nil]
    simp [m0, hsw, hdrop, heta, hrest, iff_true_intro hdot2]
  · have hsw : jsStartsWith href "phosphor:" = true :=
      jsStartsWith_proto "phosphor" rest hhref
    have hdrop : List.drop ("phosphor".length + 1) href.data = rest.data :=
      drop_proto "phosphor" rest hhref
    have m0 : jsStartsWith href "lucide:" = false :=
      jsStartsWith_head_ne rfl (by rw [hhref]; rfl) (by decide)
    have m1 : jsStartsWith href "heroicons:" = false :=
      jsStartsWith_head_ne rfl (by rw [hhref]; rfl) (by decide)
    unfold iconMatch
    simp only [iconLibs, List.findSome?_cons, List.findSome?_nil]
    simp [m0, m1, hsw, hdrop, heta, hrest, iff_true_intro hdot2]
  · have hsw : jsStartsWith href "tabler:" = true :=
      jsStartsWith_proto "tabler" rest hhref
    have hdrop : List.drop ("tabler".length + 1) href.data = rest.data :=
      drop_proto "tabler" rest hhref
    have m0 : jsStartsWith href "lucide:" = false :=
      jsStartsWith_head_ne rfl (by rw [hhref]; rfl) (by decide)
    have m1 : jsStartsWith href "heroicons:" = false :=
      jsStartsWith_head_ne rfl (by rw [hhref]; rfl) (by decide)
    have m2 : jsStartsWith href "phosphor:" = false :=
      jsStartsWith_head_ne rfl (by rw [hhref]; rfl) (by decide)
    unfold iconMatch
    simp only [iconLibs, List.findSome?_cons, List.findSome?_nil]
    simp [m0, m1, m2, hsw, hdrop, heta, hrest, iff_true_intro hdot2]
  · have hsw : jsStartsWith href "feather:" = true :=
      jsStartsWith_proto "feather" rest hhref
    have hdrop : List.drop ("feather".length + 1) href.data = rest.data :=
      drop_proto "feather" rest hhref
    have m0 : jsStartsWith href "lucide:" = false :=
      jsStartsWith_head_ne rfl (by rw [hhref]; rfl) (by decide)
    have m1 : jsStartsWith href "heroicons:" = false :=
      jsStartsWith_head_ne rfl (by rw [hhref]; rfl) (by decide)
    have m2 : jsStartsWith href "phosphor:" = false :=
      jsStartsWith_head_ne rfl (by rw [hhref]; rfl) (by decide)
    have m3 : jsStartsWith href "tabler:" = false :=
      jsStartsWith_head_ne rfl (by rw [hhref]; rfl) (by decide)
    unfold iconMatch
    simp only [iconLibs, List.findSome?_cons, List.findSome?_nil]
    simp [m0, m1, m2, m3, hsw, hdrop, heta, hrest, iff_true_intro hdot2]
  · have hsw : jsStartsWith href "icon:" = true :=
      jsStartsWith_proto "icon" rest hhref
    have hdrop : List.drop ("icon".length + 1) href.data = rest.data :=
      drop_proto "icon" rest hhref
    have m0 : jsStartsWith href "lucide:" = false :=
      jsStartsWith_head_ne rfl (by rw [hhref]; rfl) (by decide)
    have m1 : jsStartsWith href "heroicons:" = false :=
      jsStartsWith_head_ne rfl (by rw [hhref]; rfl) (by decide)
    have m2 : jsStartsWith href "phosphor:" = false :=
      jsStartsWith_head_ne rfl (by rw [hhref]; rfl) (by decide)
    have m3 : jsStartsWith href "tabler:" = false :=
      jsStartsWith_head_ne rfl (by rw [hhref]; rfl) (by decide)
    have m4 : jsStartsWith href "feather:" = false :=
      jsStartsWith_head_ne rfl (by rw [hhref]; rfl) (by decide)
    unfold iconMatch
    simp only [iconLibs, List.findSome?_cons, List.findSome?_nil]
    simp [m0, m1, m2, m3, m4, hsw, hdrop, heta, hrest, iff_true_intro hdot2]

theorem jsGetJ_nil (key : String) : jsGetJ [] key = none := rfl

theorem jsGetJ_cons (k : String) (v : JValue) (rest : List (String × JValue))
    (key : String) :
    jsGetJ ((k, v) :: rest) key =
      if (k == key) = true then some v else jsGetJ rest key := by
  unfold jsGetJ
  cases h : (k == key) with
  | false => simp [List.find?_cons, h]
  | true => simp [List.find?_cons, h]

theorem jsGetJ_singleton_ne (k key : String) (v : JValue)
    (h : (k == key) = false) : jsGetJ [(k, v)] key = none := by
  rw [jsGetJ_cons]
  simp [h, jsGetJ_nil]

theorem jsGetJ_spreadTruthy_ne (o : Option AValue) (k key : String)
    (h : (k == key) = false) : jsGetJ (spreadTruthy o k) key = none := by
  cases o with
  | none => rfl
  | some v =>
    show jsGetJ (if v.truthy = true then [(k, v.toJ)] else []) key = none
    by_cases hv : v.truthy = true
    · rw [if_pos hv]
      exact jsGetJ_singleton_ne _ _ _ h
    · rw [if_neg hv]
      rfl

theorem jsGetJ_spreadDefined_ne (o : Option AValue) (k key : String)
    (h : (k == key) = false) : jsGetJ (spreadDefined o k) key = none := by
  cases o with
  | none => rfl
  | some v => exact jsGetJ_singleton_ne _ _ _ h

theorem jsGetJ_spreadIntish_ne (o : Option AValue) (k key : String)
    (h : (k == key) = false) : jsGetJ (spreadIntish o k) key = none := by
  cases o with
  | none => rfl
  | some v =>
    show jsGetJ
      (if v.truthy = true then
        [(k, match jsParseIntA v with
             | some n => if n ≠ 0 then JValue.jnum n else v.toJ
             | none => v.toJ)]
       else []) key = none
    by_cases hv : v.truthy = true
    · rw [if_pos hv]
      exact jsGetJ_singleton_ne _ _ _ h
    · rw [if_neg hv]
      rfl

theorem jsGetJ_spreadIf_ne (cond : Bool) (k key : String) (v : JValue)
    (h : (k == key) = false) : jsGetJ (spreadIf cond k v) key = none := by
  unfold spreadIf
  cases cond with
  | true => exact jsGetJ_singleton_ne _ _ _ h
  | false => rfl

theorem jsGetJ_spreadStr_ne (o : Option String) (k key : String)
    (h : (k == key) = false) : jsGetJ (spreadStr o k) key = none := by
  cases o with
  | none => rfl
  | some s => exact jsGetJ_singleton_ne _ _ _ h

theorem jsGetJ_append (l1 l2 : List (String × JValue)) (key : String) :
    jsGetJ (l1 ++ l2) key =
      (match jsGetJ l1 key with
       | some v => some v
       | none => jsGetJ l2 key) := by
  induction l1 with
  | nil => simp [jsGetJ]
  | cons kv rest ih =>
    obtain ⟨k, v⟩ := kv
    rw [List.cons_append, jsGetJ_cons, jsGetJ_cons]
    by_cases h : (k == key) = true
    · simp [h]
    · simp [h, ih]


/-- C5 counterexample: for the image token with href `lucide:home` the
emitted node's `src` is `null` (the remainder goes into the `name` field),
whereas the claim requires `src` to be the remainder `"home"` for the named
icon libraries. -/
theorem image_icon_counterexample_c5 :
    (parseInline (.image "i" "a" "lucide:home" none []) false).1 =
      [Node.node "image" (some (imageNodeAttrs "a" "lucide:home" none []))
        none none none] ∧
    jsGetJ (imageNodeAttrs "a" "lucide:home" none []) "src" = some .jnull ∧
    some JValue.jnull ≠ some (JValue.jstr "home") := by
  refine ⟨rfl, rfl, ?_⟩
  simp

/-- C5 as amended: for an image token whose href is `lib:rest` with `lib` an
icon-protocol name, `rest` non-empty and free of line terminators, and with
no explicit `role` attribute, the emitted image node has role `icon` and
carries `name = rest`; for the five named libraries `src` is `null` and the
node carries `library = lib`, while for the generic `icon:` form `src` is the
remainder and no `library` field is present. -/
theorem image_icon_amended_c5 (raw txt lib rest href : String)
    (title : Option String) (attrs : AttrMap)
    (hlib : lib ∈ iconLibs) (hrest : rest ≠ "")
    (hdot : rest.toList.all jsDotChar = true)
    (hhref : href.toList = lib.toList ++ ':' :: rest.toList)
    (hrole : jsGetA attrs "role" = none) :
    (parseInline (.image raw txt href title attrs) false).1 =
      [Node.node "image" (some (imageNodeAttrs txt href title attrs))
        none none none] ∧
    jsGetJ (imageNodeAttrs txt href title attrs) "role" =
      some (.jstr "icon") ∧
    jsGetJ (imageNodeAttrs txt href title attrs) "name" =
      some (.jstr rest) ∧
    (lib ≠ "icon" →
      jsGetJ (imageNodeAttrs txt href title attrs) "src" = some .jnull ∧
      jsGetJ (imageNodeAttrs txt href title attrs) "library" =
        some (.jstr lib)) ∧
    (lib = "icon" →
      jsGetJ (imageNodeAttrs txt href title attrs) "src" =
        some (.jstr rest) ∧
      jsGetJ (imageNodeAttrs txt href title attrs) "library" = none) := by
  have him := iconMatch_proto lib rest hlib hrest hdot hhref
  refine ⟨rfl, ?_, ?_, ?_, ?_⟩
  · unfold imageNodeAttrs
    simp only [him, List.cons_append, List.nil_append, jsGetJ_cons]
    simp [imageFinalRole, hrole, roleOrImage, imageRole, him]
  · unfold imageNodeAttrs
    simp only [him, List.cons_append, List.nil_append, jsGetJ_cons]
    by_cases hlic : lib = "icon"
    · simp [hlic, jsGetJ_append, jsGetJ_cons, hrest]
    · simp [hlic, jsGetJ_append, jsGetJ_cons, hrest]
  · intro hli
    constructor
    · unfold imageNodeAttrs
      simp only [him, List.cons_append, List.nil_append, jsGetJ_cons]
      simp [imageSrc, him, hli]
    · unfold imageNodeAttrs
      simp only [him, List.cons_append, List.nil_append, jsGetJ_cons]
      simp [hli, jsGetJ_append, jsGetJ_cons]
  · intro hli
    constructor
    · unfold imageNodeAttrs
      simp only [him, List.cons_append, List.nil_append, jsGetJ_cons]
      simp [imageSrc, him, hli]
    · unfold imageNodeAttrs
      simp only [him, List.cons_append, List.nil_append, jsGetJ_cons]
      simp [hli, jsGetJ_append, jsGetJ_cons, hrest, jsGetJ_spreadTruthy_ne,
        jsGetJ_spreadDefined_ne, jsGetJ_spreadIntish_ne, jsGetJ_spreadIf_ne,
        jsGetJ_spreadStr_ne, jsGetJ_nil]

/-- Witness for the amended C5 at `lucide:home` (named library) and
`icon:logo.svg` (generic form), with empty attribute maps. -/
theorem image_icon_amended_c5_witness :
    (jsGetJ (imageNodeAttrs "a" "lucide:home" none []) "role" =
       some (.jstr "icon") ∧
     jsGetJ (imageNodeAttrs "a" "lucide:home" none []) "library" =
       some (.jstr "lucide")) ∧
    (jsGetJ (imageNodeAttrs "a" "icon:logo.svg" none []) "src" =
       some (.jstr "logo.svg") ∧
     jsGetJ (imageNodeAttrs "a" "icon:logo.svg" none []) "library" = none) :=
  ⟨⟨(image_icon_amended_c5 "i" "a" "lucide" "home" "lucide:home" none []
      (by simp [iconLibs]) (by decide) (by decide) (by decide) rfl).2.1,
    ((image_icon_amended_c5 "i" "a" "lucide" "home" "lucide:home" none []
      (by simp [iconLibs]) (by decide) (by decide) (by decide) rfl).2.2.2.1
      (by decide)).2⟩,
   ((image_icon_amended_c5 "i" "a" "icon" "logo.svg" "icon:logo.svg" none []
      (by simp [iconLibs]) (by decide) (by decide) (by decide) rfl).2.2.2.2
      rfl)⟩


/-- Elements that pass the hoisting test are never paragraphs. -/
theorem unwrapPara_of_hoistCond {e : Node} (h : hoistCond e = true) :
    (e.typeOf == "paragraph") = false := by
  unfold hoistCond at h
  rcases Bool.or_eq_true_iff.mp h with h1 | h1
  · have := (Bool.and_eq_true_iff.mp h1).1
    cases e with
    | jsNull => decide
    | node t a c tx mk =>
      simp only [Node.typeOf] at this ⊢
      simp only [beq_iff_eq] at this ⊢
      rw [this]
      decide
  · cases e with
    | jsNull => decide
    | node t a c tx mk =>
      simp only [Node.typeOf] at h1 ⊢
      simp only [beq_iff_eq] at h1 ⊢
      rw [h1]
      decide

/-- The per-element contribution used to relate the hoisted result to the
original inline sequence: paragraphs contribute their content, every other
node contributes itself. -/
def unwrapPara (n : Node) : List Node :=
  if n.typeOf == "paragraph" then n.contentOf.getD [] else [n]

theorem hoistGo_prefix (es : List Node) (res : List Node)
    (cur : Option (List Node)) :
    ∃ rest, hoistGo es res cur = res ++ rest := by
  induction es generalizing res cur with
  | nil => exact ⟨closePara cur, rfl⟩
  | cons e es ih =>
    unfold hoistGo
    by_cases h : hoistCond e = true
    · rw [if_pos h]
      obtain ⟨r2, hr2⟩ := ih (res ++ closePara cur ++ [e]) none
      exact ⟨closePara cur ++ [e] ++ r2, by simpa using hr2⟩
    · rw [if_neg h]
      exact ih res _

theorem hoistGo_mem (es : List Node) (res : List Node)
    (cur : Option (List Node)) (el : Node) (hmem : el ∈ es)
    (hc : hoistCond el = true) : el ∈ hoistGo es res cur := by
  induction es generalizing res cur with
  | nil => cases hmem
  | cons e es ih =>
    unfold hoistGo
    rcases List.mem_cons.mp hmem with rfl | hmem2
    · rw [if_pos hc]
      obtain ⟨r2, hr2⟩ := hoistGo_prefix es (res ++ closePara cur ++ [el]) none
      rw [hr2]
      simp
    · by_cases h : hoistCond e = true
      · rw [if_pos h]
        exact ih _ _ hmem2
      · rw [if_neg h]
        exact ih _ _ hmem2

theorem hoistGo_para_children (es : List Node) (res : List Node)
    (cur : Option (List Node))
    (hres : ∀ p ∈ res, p.typeOf = "paragraph" →
      ∀ c ∈ p.contentOf.getD [], hoistCond c = false)
    (hcur : ∀ c ∈ cur.getD [], hoistCond c = false) :
    ∀ p ∈ hoistGo es res cur, p.typeOf = "paragraph" →
      ∀ c ∈ p.contentOf.getD [], hoistCond c = false := by
  induction es generalizing res cur with
  | nil =>
    intro p hp
    unfold hoistGo at hp
    rcases List.mem_append.mp hp with h | h
    · exact hres p h
    · cases cur with
      | none => cases h
      | some l =>
        simp only [closePara, List.mem_singleton] at h
        subst h
        intro _ c hc2
        exact hcur c (by simpa [mkPara, Node.contentOf] using hc2)
  | cons e es ih =>
    intro p hp
    unfold hoistGo at hp
    by_cases h : hoistCond e = true
    · rw [if_pos h] at hp
      refine ih (res ++ closePara cur ++ [e]) none ?_ (by simp) p hp
      intro q hq
      rcases List.mem_append.mp hq with hq2 | hq2
      · rcases List.mem_append.mp hq2 with hq3 | hq3
        · exact hres q hq3
        · cases cur with
          | none => cases hq3
          | some l =>
            simp only [closePara, List.mem_singleton] at hq3
            subst hq3
            intro _ c hc2
            exact hcur c (by simpa [mkPara, Node.contentOf] using hc2)
      · simp only [List.mem_singleton] at hq2
        subst hq2
        intro hqt
        have := unwrapPara_of_hoistCond h
        rw [hqt] at this
        simp at this
    · rw [if_neg h] at hp
      refine ih res (some (cur.getD [] ++ [e])) hres ?_ p hp
      intro c hc2
      simp only [Option.getD_some] at hc2
      rcases List.mem_append.mp hc2 with hc3 | hc3
      · exact hcur c hc3
      · simp only [List.mem_singleton] at hc3
        subst hc3
        exact Bool.not_eq_true _ ▸ (by simpa using h)

theorem hoistGo_flatten (es : List Node) (res : List Node)
    (cur : Option (List Node)) :
    (hoistGo es res cur).flatMap unwrapPara =
      res.flatMap unwrapPara ++ cur.getD [] ++ es := by
  induction es generalizing res cur with
  | nil =>
    unfold hoistGo
    cases cur with
    | none => simp [closePara]
    | some l => simp [closePara, unwrapPara, mkPara, Node.typeOf, Node.contentOf]
  | cons e es ih =>
    unfold hoistGo
    by_cases h : hoistCond e = true
    · rw [if_pos h, ih]
      have he : unwrapPara e = [e] := by
        unfold unwrapPara
        rw [unwrapPara_of_hoistCond h]
        simp
      have hm : ∀ l : List Node, unwrapPara (mkPara l) = l := fun l => by
        simp [unwrapPara, mkPara, Node.typeOf, Node.contentOf]
      cases cur with
      | none => simp [closePara, he]
      | some l => simp [closePara, he, hm]
    · rw [if_neg h, ih]
      simp


theorem icon_of_not_hoist {c : Node} (h : hoistCond c = false)
    (him : c.typeOf = "image") : imageRoleIsIcon c = true := by
  cases hicon : imageRoleIsIcon c with
  | true => rfl
  | false =>
    have ht : hoistCond c = true := by
      simp [hoistCond, him, hicon]
    rw [ht] at h
    cases h

/-- C2: in the node array returned by the block transformer for a paragraph
token, no paragraph node has a direct image child unless that image's `role`
attribute is `"icon"`; every image of the inline sequence whose role is not
`"icon"` appears as a top-level element of the returned array; and flattening
the returned array (paragraphs giving their content, everything else itself)
recovers exactly the original inline sequence, i.e. the text runs around a
hoisted image are split into separate paragraphs before and after it. -/
theorem paragraph_hoist_c2 (env : ExtParsers) (raw : String) (ts : List Token) :
    (∀ p ∈ (parseBlock env (.paragraph raw ts)).pushed,
       p.typeOf = "paragraph" →
       ∀ c ∈ p.contentOf.getD [], c.typeOf = "image" →
         imageRoleIsIcon c = true) ∧
    (∀ el ∈ parseParagraph ts,
       el.typeOf = "image" → imageRoleIsIcon el = false →
         el ∈ (parseBlock env (.paragraph raw ts)).pushed) ∧
    ((parseBlock env (.paragraph raw ts)).pushed.flatMap unwrapPara =
      parseParagraph ts) := by
  have hpb : parseBlock env (.paragraph raw ts) =
      if (parseParagraph ts).isEmpty then .none
      else .many (hoistImages (parseParagraph ts)) := rfl
  by_cases hemp : (parseParagraph ts).isEmpty
  · rw [hpb, if_pos hemp]
    have hnil : parseParagraph ts = [] := List.isEmpty_iff.mp hemp
    refine ⟨?_, ?_, ?_⟩
    · intro p hp
      simp [BlockResult.pushed] at hp
    · intro el hel
      rw [hnil] at hel
      cases hel
    · simp [BlockResult.pushed, hnil]
  · rw [hpb, if_neg hemp]
    simp only [BlockResult.pushed]
    refine ⟨?_, ?_, ?_⟩
    · intro p hp hpt c hc hcim
      have hnh : hoistCond c = false :=
        hoistGo_para_children (parseParagraph ts) [] none
          (by simp) (by simp) p hp hpt c hc
      exact icon_of_not_hoist hnh hcim
    · intro el hel him hicon
      refine hoistGo_mem (parseParagraph ts) [] none el hel ?_
      simp [hoistCond, him, hicon]
    · have := hoistGo_flatten (parseParagraph ts) [] none
      simpa [hoistImages] using this

/-- Witness for C2 at a concrete paragraph holding text and a non-icon
image. -/
theorem paragraph_hoist_c2_witness :
    (Node.node "image" (some (imageNodeAttrs "x" "./p.png" none []))
        none none none) ∈
      (parseBlock ⟨fun _ => Option.none, fun _ => Option.none⟩
        (.paragraph "" [.text "a", .image "i" "x" "./p.png" none []])).pushed ∧
    ((parseBlock ⟨fun _ => Option.none, fun _ => Option.none⟩
        (.paragraph "" [.text "a", .image "i" "x" "./p.png" none []])).pushed.flatMap
          unwrapPara =
      parseParagraph [.text "a", .image "i" "x" "./p.png" none []]) :=
  ⟨(paragraph_hoist_c2 ⟨fun _ => Option.none, fun _ => Option.none⟩ ""
      [.text "a", .image "i" "x" "./p.png" none []]).2.1
      (Node.node "image" (some (imageNodeAttrs "x" "./p.png" none []))
        none none none)
      (by simp [parseParagraph, parseInlineList, parseInline])
      rfl rfl,
   (paragraph_hoist_c2 ⟨fun _ => Option.none, fun _ => Option.none⟩ ""
      [.text "a", .image "i" "x" "./p.png" none []]).2.2⟩


/-- A trivial instance of the external deserializer contract (every parse
throws); used to instantiate theorems at concrete inputs. -/
def envNone : ExtParsers := ⟨fun _ => none, fun _ => none⟩

/-- C9: the assembled doc node has no paragraph child with empty content —
every paragraph with empty (or absent) content is removed by the final
filter — and a paragraph token whose inline content lowers to zero nodes
yields no node at all from the block transformer. -/
theorem doc_no_empty_paragraph_c9 (env : ExtParsers) (ts : List Token) :
    (∀ n ∈ (parseMarkdownContent env ts).contentOf.getD [],
       n.typeOf = "paragraph" → isEmptyContent n.contentOf = false) ∧
    (∀ (raw : String) (its : List Token), parseParagraph its = [] →
       parseBlock env (.paragraph raw its) = .none) := by
  constructor
  · intro n hn hpt
    have hc : (parseMarkdownContent env ts).contentOf.getD [] =
        (ts.flatMap (fun t => (parseBlock env t).pushed)).filter docKeep := rfl
    rw [hc] at hn
    have hk := (List.mem_filter.mp hn).2
    unfold docKeep at hk
    rcases Bool.and_eq_true_iff.mp hk with ⟨h1, h2⟩
    cases hie : isEmptyContent n.contentOf with
    | false => rfl
    | true =>
      exfalso
      have hpe : (n.typeOf == "paragraph" && isEmptyContent n.contentOf) = true := by
        simp [hpt, hie]
      rw [hpe] at h2
      simp at h2
  · intro raw its h
    have hie : (parseParagraph its).isEmpty = true := by simp [h]
    rw [show parseBlock env (.paragraph raw its) =
      (if (parseParagraph its).isEmpty then .none
       else .many (hoistImages (parseParagraph its))) from rfl, if_pos hie]

/-- Witness for C9 at a one-paragraph document and at an inline sequence
lowering to nothing. -/
theorem doc_no_empty_paragraph_c9_witness :
    isEmptyContent (Node.node "paragraph" none
      (some [mkText "x"]) none none).contentOf = false ∧
    parseBlock envNone (.paragraph "" [.text ""]) = .none :=
  ⟨(doc_no_empty_paragraph_c9 envNone [.paragraph "" [.text "x"]]).1
      (Node.node "paragraph" none (some [mkText "x"]) none none)
      (List.mem_singleton.mpr rfl) rfl,
   (doc_no_empty_paragraph_c9 envNone []).2 "" [.text ""] rfl⟩


theorem isNullJS_iff (v : JValue) : v.isNullJS = true ↔ v = .jnull := by
  cases v <;> simp [JValue.isNullJS]

/-- Shared helper: a tagged fence whose `parseCodeBlockData` result is `null`
produces the display `codeBlock` fallback. -/
theorem parseBlock_code_fallback (env : ExtParsers) (raw body : String)
    (lang lng : Option String) (tg : String)
    (hinfo : processCodeInfo lang = (lng, some tg))
    (h : parseCodeBlockData env (cleanCodeText body) lng = .jnull) :
    parseBlock env (.code raw lang body) =
      .one (.node "codeBlock"
        (some [("language", optStrOrNull lng), ("tag", .jstr tg)])
        (some [mkText (cleanCodeText body)]) none none) := by
  have hb : (parseCodeBlockData env (cleanCodeText body) lng).isNullJS = true :=
    (isNullJS_iff _).mpr h
  simp only [parseBlock, hinfo, hb, if_true]

/-- Shared helper: a tagged fence whose `parseCodeBlockData` result is not
`null` produces a `dataBlock` carrying the parsed value and no content. -/
theorem parseBlock_code_data (env : ExtParsers) (raw body : String)
    (lang lng : Option String) (tg : String)
    (hinfo : processCodeInfo lang = (lng, some tg))
    (h : parseCodeBlockData env (cleanCodeText body) lng ≠ .jnull) :
    parseBlock env (.code raw lang body) =
      .one (.node "dataBlock"
        (some [("tag", .jstr tg),
               ("data", parseCodeBlockData env (cleanCodeText body) lng)])
        none none none) := by
  have hb : (parseCodeBlockData env (cleanCodeText body) lng).isNullJS = false := by
    cases hnv : (parseCodeBlockData env (cleanCodeText body) lng).isNullJS with
    | false => rfl
    | true => exact absurd ((isNullJS_iff _).mp hnv) h
  simp only [parseBlock, hinfo, hb, Bool.false_eq_true, if_false]

/-- Shared helper: for a `json` language a parse that returns `null` or
throws is folded to `null` by `parseCodeBlockData`. -/
theorem parseCodeBlockData_json_null (env : ExtParsers) (text l : String)
    (hl : jsToLower l = "json")
    (h : env.json text = some JValue.jnull ∨ env.json text = none) :
    parseCodeBlockData env text (some l) = .jnull := by
  unfold parseCodeBlockData
  by_cases ht : text = ""
  · rw [if_pos ht]
  · rw [if_neg ht]
    simp only [Option.getD_some, hl]
    rcases h with h | h <;> simp [h]


/-- Minimal instance of the external JSON deserializer contract
(`parse(text) -> value | throws`): parsing the text `null` succeeds and
returns the JSON value `null` (as `JSON.parse` does); every other input is
modelled as throwing. -/
def jsonNullStub : String → Option JValue :=
  fun s => if s = "null" then some .jnull else none

/-- An external-parser environment whose JSON side is `jsonNullStub`. -/
def envJsonNull : ExtParsers := ⟨jsonNullStub, fun _ => none⟩

/-- C1 counterexample: a `json:cfg` fence whose body is `null` parses
successfully (the external parser returns the value `null`), yet the block
transformer emits the `codeBlock` fallback, not a `dataBlock` — refuting the
claim that parse success always yields a `dataBlock`. -/
theorem tagged_code_counterexample_c1 :
    envJsonNull.json (cleanCodeText "null") = some JValue.jnull ∧
    parseBlock envJsonNull (.code "" (some "json:cfg") "null") =
      .one (.node "codeBlock"
        (some [("language", .jstr "json"), ("tag", .jstr "cfg")])
        (some [mkText "null"]) none none) ∧
    ((parseBlock envJsonNull
        (.code "" (some "json:cfg") "null")).pushed.headD Node.jsNull).typeOf =
      "codeBlock" ∧
    ("codeBlock" : String) ≠ "dataBlock" :=
  ⟨rfl, rfl, rfl, by decide⟩

/-- C1 as amended: for a code token whose fence info carries a tag, the body
is dedented and handed to the external JSON / YAML deserializer according to
the language; when that yields a non-null value the result is a `dataBlock`
`{tag, data}` with no content; when it throws, yields `null`, or the body is
empty, the result is the `codeBlock` fallback `{language, tag}` whose sole
content child is a text node holding the dedented body; in every case a
single node is returned, so a parse failure never propagates. -/
theorem tagged_code_amended_c1 (env : ExtParsers) (raw body : String)
    (lang lng : Option String) (tg : String)
    (hinfo : processCodeInfo lang = (lng, some tg)) :
    (parseCodeBlockData env (cleanCodeText body) lng ≠ .jnull →
      parseBlock env (.code raw lang body) =
        .one (.node "dataBlock"
          (some [("tag", .jstr tg),
                 ("data", parseCodeBlockData env (cleanCodeText body) lng)])
          none none none)) ∧
    (parseCodeBlockData env (cleanCodeText body) lng = .jnull →
      parseBlock env (.code raw lang body) =
        .one (.node "codeBlock"
          (some [("language", optStrOrNull lng), ("tag", .jstr tg)])
          (some [mkText (cleanCodeText body)]) none none)) ∧
    (∀ l v, lng = some l → jsToLower l = "json" →
      cleanCodeText body ≠ "" → env.json (cleanCodeText body) = some v →
      parseCodeBlockData env (cleanCodeText body) lng = v) ∧
    (∀ l, lng = some l → jsToLower l = "json" →
      env.json (cleanCodeText body) = none →
      parseCodeBlockData env (cleanCodeText body) lng = .jnull) ∧
    (∀ l v, lng = some l → (jsToLower l = "yaml" ∨ jsToLower l = "yml") →
      cleanCodeText body ≠ "" → env.yaml (cleanCodeText body) = some v →
      parseCodeBlockData env (cleanCodeText body) lng = v) ∧
    (∃ n, parseBlock env (.code raw lang body) = .one n) := by
  refine ⟨?_, ?_, ?_, ?_, ?_, ?_⟩
  · exact parseBlock_code_data env raw body lang lng tg hinfo
  · exact parseBlock_code_fallback env raw body lang lng tg hinfo
  · intro l v hl hjson hne hsome
    subst hl
    unfold parseCodeBlockData
    rw [if_neg hne]
    simp [hjson, hsome]
  · intro l hl hjson hnone
    subst hl
    exact parseCodeBlockData_json_null env _ l hjson (Or.inr hnone)
  · intro l v hl hyaml hne hsome
    subst hl
    unfold parseCodeBlockData
    rw [if_neg hne]
    have hnj : ("" : String) ≠ "json" ∨ True := Or.inr trivial
    rcases hyaml with hy | hy <;>
      simp [Option.getD_some, hy, hsome]
  · by_cases hnv : parseCodeBlockData env (cleanCodeText body) lng = .jnull
    · exact ⟨_, parseBlock_code_fallback env raw body lang lng tg hinfo hnv⟩
    · exact ⟨_, parseBlock_code_data env raw body lang lng tg hinfo hnv⟩

/-- Witness for the amended C1 at a `json:cfg` fence whose body does not
parse (the stub environment throws on everything but `null`). -/
theorem tagged_code_amended_c1_witness :
    parseBlock envJsonNull (.code "" (some "json:cfg") "[broken") =
      .one (.node "codeBlock"
        (some [("language", optStrOrNull (some "json")), ("tag", .jstr "cfg")])
        (some [mkText (cleanCodeText "[broken")]) none none) :=
  (tagged_code_amended_c1 envJsonNull "" "[broken" (some "json:cfg")
    (some "json") "cfg" rfl).2.1 rfl


/-- C10: a tagged fence whose body parses successfully to the value `null`
(for example a `json`-tagged fence with body `null`) is indistinguishable
from a parse failure — `parseCodeBlockData` folds both the caught exception
and the successful `null` result to `null`, and the block transformer then
returns the `codeBlock` fallback instead of a `dataBlock`; an empty dedented
body (for example an empty `yaml`-tagged fence) takes the same fallback. -/
theorem null_data_fallback_c10 (env : ExtParsers) (raw body : String)
    (lang lng : Option String) (tg : String)
    (hinfo : processCodeInfo lang = (lng, some tg)) :
    (∀ (text l : String), jsToLower l = "json" →
       env.json text = some JValue.jnull →
       parseCodeBlockData env text (some l) = .jnull) ∧
    (∀ (text l : String), jsToLower l = "json" →
       env.json text = none →
       parseCodeBlockData env text (some l) = .jnull) ∧
    ((∃ l, lng = some l ∧ jsToLower l = "json" ∧
        env.json (cleanCodeText body) = some JValue.jnull) →
      parseBlock env (.code raw lang body) =
        .one (.node "codeBlock"
          (some [("language", optStrOrNull lng), ("tag", .jstr tg)])
          (some [mkText (cleanCodeText body)]) none none)) ∧
    (cleanCodeText body = "" →
      parseBlock env (.code raw lang body) =
        .one (.node "codeBlock"
          (some [("language", optStrOrNull lng), ("tag", .jstr tg)])
          (some [mkText (cleanCodeText body)]) none none)) := by
  refine ⟨?_, ?_, ?_, ?_⟩
  · intro text l hl h
    exact parseCodeBlockData_json_null env text l hl (Or.inl h)
  · intro text l hl h
    exact parseCodeBlockData_json_null env text l hl (Or.inr h)
  · rintro ⟨l, rfl, hl, h⟩
    exact parseBlock_code_fallback env raw body lang (some l) tg hinfo
      (parseCodeBlockData_json_null env _ l hl (Or.inl h))
  · intro hbody
    refine parseBlock_code_fallback env raw body lang lng tg hinfo ?_
    unfold parseCodeBlockData
    rw [if_pos hbody]

/-- Witness for C10: a `json:cfg` fence with body `null` under the stub
JSON parser, and an empty `yaml:data` fence, both produce the `codeBlock`
fallback. -/
theorem null_data_fallback_c10_witness :
    parseBlock envJsonNull (.code "" (some "json:cfg") "null") =
      .one (.node "codeBlock"
        (some [("language", optStrOrNull (some "json")), ("tag", .jstr "cfg")])
        (some [mkText (cleanCodeText "null")]) none none) ∧
    parseBlock envNone (.code "" (some "yaml:data") "") =
      .one (.node "codeBlock"
        (some [("language", optStrOrNull (some "yaml")), ("tag", .jstr "data")])
        (some [mkText (cleanCodeText "")]) none none) :=
  ⟨(null_data_fallback_c10 envJsonNull "" "null" (some "json:cfg")
      (some "json") "cfg" rfl).2.2.1 ⟨"json", rfl, rfl, rfl⟩,
   (null_data_fallback_c10 envNone "" "" (some "yaml:data")
      (some "yaml") "data" rfl).2.2.2 rfl⟩

